import Mathlib

/-!
Verification of the bencode package: a shallow embedding of the generic
codec (`decodeRawMessage` / `encodeRawMessage`) and of the reflective
marshal/unmarshal layer (`struct.go`), with theorems settling the spec's
claims about them.

Byte streams are modelled as `List Char` (Go strings are byte sequences;
every byte of interest is an ASCII scalar).  Fallible Go functions return
`Except`; Go runtime panics are modelled as distinguished error
constructors (`panicIndexOutOfRange`, `panicTypeAssertion`, ...) so that
theorems can separate a reported error from an uncontrolled fault.
-/

namespace Bencode

/-- The dynamic scalar stored in `RawMessage.POD`: the decoder and the
marshaller only ever place an `int64`, a `uint64` or a `string` there. -/
inductive POD where
  | i (v : Int)
  | u (v : Nat)
  | s (v : List Char)
deriving DecidableEq, Repr

/-- The `RawMessage` struct from the source: `POD interface{}`, `L []*RawMessage`,
`D []*KV` with `KV = (K string, V *RawMessage)`.  A `none` pod models the
nil interface; nil and empty slices both have length 0 and are not
distinguished by any code path (only `len(...) > 0` is ever tested). -/
inductive RawMessage where
  | mk (pod : Option POD) (l : List RawMessage) (d : List (List Char × RawMessage))

/-- Pod projection of a `RawMessage`. -/
def RawMessage.pod : RawMessage → Option POD
  | ⟨p, _, _⟩ => p

/-- List projection of a `RawMessage`. -/
def RawMessage.l : RawMessage → List RawMessage
  | ⟨_, l, _⟩ => l

/-- Dict projection of a `RawMessage`. -/
def RawMessage.d : RawMessage → List (List Char × RawMessage)
  | ⟨_, _, d⟩ => d

/-- Decoder errors.  `eofErr` covers `io.EOF`/`io.ErrUnexpectedEOF` from
`ReadByte`/`ReadFull`; `errSyntax`/`errRange` are strconv's error kinds;
the `panic…` constructors model Go runtime panics (not returned errors). -/
inductive DErr where
  | eofErr
  | errNotDigit
  | errSyntax
  | errRange
  | errUnexpected (c : Char)
  | panicIndexOutOfRange
  | panicTypeAssertion
  | outOfFuel
deriving DecidableEq, Repr

/-- The test `c >= '0' && c <= '9'` as in `intBuf`. -/
def isDigitB (c : Char) : Bool := '0' ≤ c && c ≤ '9'

/-- Numeric value of an ASCII digit. -/
def digitVal (c : Char) : Nat := c.toNat - 48

/-- The ASCII digit for `n < 10` (a concrete character, which keeps all
character comparisons decidable). -/
def digitChar : Nat → Char
  | 0 => '0' | 1 => '1' | 2 => '2' | 3 => '3' | 4 => '4'
  | 5 => '5' | 6 => '6' | 7 => '7' | 8 => '8' | 9 => '9'
  | _ => '*'

/-- The constant `math.MaxUint64`. -/
def u64Max : Nat := 2 ^ 64 - 1

/-- The digit-accumulation loop of `strconv.ParseUint` with 64-bit
`maxVal`: per character, reject non-digits and digits outside the base
(syntax error), then apply the `cutoff` and `maxVal` overflow checks
(range error), mirroring the order of the checks in strconv. -/
def parseDigitsLoop (base : Nat) : Nat → List Char → Except DErr Nat
  | n, [] => .ok n
  | n, c :: rest =>
    if isDigitB c then
      let d := digitVal c
      if base ≤ d then .error .errSyntax
      else if u64Max / base + 1 ≤ n then .error .errRange
      else if u64Max < n * base + d then .error .errRange
      else parseDigitsLoop base (n * base + d) rest
    else .error .errSyntax

/-- Models `strconv.ParseUint(s, 0, 64)`, restricted to inputs over `'-'` and the
ASCII digits — the only strings `intBuf` can produce.  Base-0 prefix
detection then degenerates to: a leading `'0'` selects octal on the rest
(the `0b`/`0o`/`0x` prefixes need a letter, which this alphabet excludes);
anything else is decimal.  A `'-'` anywhere is rejected by the digit loop,
as in strconv. -/
def goParseUint : List Char → Except DErr Nat
  | [] => .error .errSyntax
  | '0' :: rest => parseDigitsLoop 8 0 rest
  | s => parseDigitsLoop 10 0 s

/-- The value `1 << 63`, the signed cutoff used by `strconv.ParseInt`. -/
def i64Cut : Nat := 2 ^ 63

/-- Models `strconv.ParseInt(s, 0, 64)` (same input alphabet restriction as
`goParseUint`): strip one leading sign, parse the rest as unsigned, then
apply the sign-dependent range check (`un > 1<<63` when negative,
`un >= 1<<63` otherwise) and negate if the sign was `'-'`. -/
def goParseInt (s : List Char) : Except DErr Int :=
  match s with
  | [] => .error .errSyntax
  | c :: rest =>
    if c = '-' then
      match goParseUint rest with
      | .error e => .error e
      | .ok un => if i64Cut < un then .error .errRange else .ok (-(un : Int))
    else if c = '+' then
      match goParseUint rest with
      | .error e => .error e
      | .ok un => if i64Cut ≤ un then .error .errRange else .ok (un : Int)
    else
      match goParseUint (c :: rest) with
      | .error e => .error e
      | .ok un => if i64Cut ≤ un then .error .errRange else .ok (un : Int)

/-- Models `intBuf`: read bytes until the delimiter (consumed), requiring every
byte before it to be `'-'` or a digit.  EOF before the delimiter is a read
error, any other byte is the "not a digit" error. -/
def intBuf (delim : Char) : List Char → Except DErr (List Char × List Char)
  | [] => .error .eofErr
  | c :: rest =>
    if c = delim then .ok ([], rest)
    else if c = '-' ∨ isDigitB c then
      match intBuf delim rest with
      | .ok (tok, r) => .ok (c :: tok, r)
      | .error e => .error e
    else .error .errNotDigit

/-- Models `strBuf`: length run up to `':'`, `ParseUint` it, then read exactly
that many bytes (`io.ReadFull`; a short stream is an EOF error). -/
def strBuf (s : List Char) : Except DErr (List Char × List Char) :=
  match intBuf ':' s with
  | .error e => .error e
  | .ok (tok, rest) =>
    match goParseUint tok with
    | .error e => .error e
    | .ok len =>
      if rest.length < len then .error .eofErr
      else .ok (rest.take len, rest.drop len)

mutual

/-- Models `decodeRawMessage`, fuel-indexed to make the recursion evident: every
recursive call in the source consumes at least one byte, so any fuel
larger than the input length makes `outOfFuel` unreachable.  The branch
structure mirrors the Go `switch`: digit → string, `'i'` → integer
(indexing `intbuf[0]` — a panic when the token is empty), `'l'`/`'d'` →
loops, otherwise the "unexpected character" error. -/
def decodeRM : Nat → List Char → Except DErr (RawMessage × List Char)
  | 0, _ => .error .outOfFuel
  | _ + 1, [] => .error .eofErr
  | fuel + 1, c :: input =>
    if isDigitB c then
      match strBuf (c :: input) with
      | .error e => .error e
      | .ok (str, rest) => .ok (⟨some (.s str), [], []⟩, rest)
    else if c = 'i' then
      match intBuf 'e' input with
      | .error e => .error e
      | .ok ([], _) => .error .panicIndexOutOfRange
      | .ok (t :: tok, rest) =>
        if t = '-' then
          match goParseInt (t :: tok) with
          | .error e => .error e
          | .ok iv => .ok (⟨some (.i iv), [], []⟩, rest)
        else
          match goParseUint (t :: tok) with
          | .error e => .error e
          | .ok uv => .ok (⟨some (.u uv), [], []⟩, rest)
    else if c = 'l' then
      match decodeLoopL fuel input with
      | .error e => .error e
      | .ok (l, rest) => .ok (⟨none, l, []⟩, rest)
    else if c = 'd' then
      match decodeLoopD fuel input with
      | .error e => .error e
      | .ok (d, rest) => .ok (⟨none, [], d⟩, rest)
    else .error (.errUnexpected c)

/-- The `'l'` loop of `decodeRawMessage`: peek for `'e'`, otherwise decode
an element and continue. -/
def decodeLoopL : Nat → List Char → Except DErr (List RawMessage × List Char)
  | 0, _ => .error .outOfFuel
  | _ + 1, [] => .error .eofErr
  | fuel + 1, c :: input =>
    if c = 'e' then .ok ([], input)
    else
      match decodeRM fuel (c :: input) with
      | .error e => .error e
      | .ok (v, rest) =>
        match decodeLoopL fuel rest with
        | .error e => .error e
        | .ok (l, rest2) => .ok (v :: l, rest2)

/-- The `'d'` loop of `decodeRawMessage`: peek for `'e'`, decode a key,
decode a value, then perform the `k.POD.(string)` type assertion — a
runtime panic when the key is not a string — and continue. -/
def decodeLoopD : Nat → List Char →
    Except DErr (List (List Char × RawMessage) × List Char)
  | 0, _ => .error .outOfFuel
  | _ + 1, [] => .error .eofErr
  | fuel + 1, c :: input =>
    if c = 'e' then .ok ([], input)
    else
      match decodeRM fuel (c :: input) with
      | .error e => .error e
      | .ok (k, rest) =>
        match decodeRM fuel rest with
        | .error e => .error e
        | .ok (v, rest2) =>
          match k with
          | ⟨some (.s ks), _, _⟩ =>
            match decodeLoopD fuel rest2 with
            | .error e => .error e
            | .ok (d, rest3) => .ok ((ks, v) :: d, rest3)
          | _ => .error .panicTypeAssertion
end

/-- Models `Decode`: run the decoder with ample fuel (a top-level call makes at
most `length + 1` nested calls before either finishing or consuming the
whole input). -/
def decodeTop (s : List Char) : Except DErr (RawMessage × List Char) :=
  decodeRM (s.length + 1) s

/-- Digit-emission loop for `natDec`, fuel-indexed so that it reduces
definitionally (any fuel above `n` is sufficient since the argument
shrinks by a factor of ten each step). -/
def natDecAux : Nat → Nat → List Char
  | 0, _ => []
  | fuel + 1, n =>
    if n < 10 then [digitChar n]
    else natDecAux fuel (n / 10) ++ [digitChar (n % 10)]

/-- Decimal digits of `n`, most significant first (`fmt.Sprintf("%d", n)`
for a non-negative value). -/
def natDec (n : Nat) : List Char := natDecAux (n + 1) n

/-- Decimal rendering `fmt.Sprintf("%d", i)` for an `int64`. -/
def intDec (i : Int) : List Char :=
  if i < 0 then '-' :: natDec i.natAbs else natDec i.toNat

/-- Models `encodePOD`: integers as `i<decimal>e`, strings as `<len>:<bytes>`. -/
def encodePOD : POD → List Char
  | .i v => 'i' :: (intDec v ++ ['e'])
  | .u v => 'i' :: (natDec v ++ ['e'])
  | .s v => natDec v.length ++ ':' :: v

mutual

/-- Models `encodeRawMessage`: the switch takes the first set variant — pod if
non-nil, else a non-empty list, else a non-empty dict, else nothing is
written. -/
def encodeRM : RawMessage → List Char
  | ⟨some p, _, _⟩ => encodePOD p
  | ⟨none, l :: ls, _⟩ => 'l' :: (encodeList (l :: ls) ++ ['e'])
  | ⟨none, [], d :: ds⟩ => 'd' :: (encodeDict (d :: ds) ++ ['e'])
  | ⟨none, [], []⟩ => []

/-- Concatenated encodings of list elements. -/
def encodeList : List RawMessage → List Char
  | [] => []
  | v :: t => encodeRM v ++ encodeList t

/-- Concatenated `<key><value>` encodings of dict entries, in stored
order (`encodePOD(kv.K)` then the value). -/
def encodeDict : List (List Char × RawMessage) → List Char
  | [] => []
  | (k, v) :: t => encodePOD (.s k) ++ encodeRM v ++ encodeDict t

end

/-! ## The reflective layer (`struct.go`)

Go types are modelled by `FieldType` (the shapes `struct.go` dispatches
on: the three POD kinds, slices, pointers-to-struct, `*RawMessage`, plus
maps and `bool` as representatives of kinds outside every `switch`), and
runtime values by `Value`.  A struct type is its ordered field list; a
struct value is the ordered list of its field values.  `reflect`'s
in-place mutation becomes explicit state passing: each unmarshal function
returns the updated value. -/

/-- A `reflect.Kind`, as printed in the error messages of `struct.go`. -/
inductive GoKind where
  | kInt64 | kUint64 | kString | kBool | kSlice | kPtr | kMap
deriving DecidableEq, Repr

mutual
/-- The declared type of a field, restricted to the shapes the source
dispatches on.  `tPtr` is a pointer to a struct (given by its field
declarations); `tRawPtr` is `*RawMessage`; `tMap` is a map kind (its
value type is irrelevant: no code path ever writes an entry); `tBool` is
a representative of the kinds missing from every `switch`. -/
inductive FieldType where
  | tInt64
  | tUint64
  | tString
  | tBool
  | tSlice (elem : FieldType)
  | tPtr (fields : List FieldDecl)
  | tRawPtr
  | tMap

/-- One struct field: name, `ben` tag (empty list = no tag), exported
flag (`len(PkgPath) == 0`), declared type. -/
inductive FieldDecl where
  | mk (name : List Char) (tag : List Char) (exported : Bool) (ty : FieldType)
end

/-- Field name accessor. -/
def FieldDecl.name : FieldDecl → List Char
  | ⟨n, _, _, _⟩ => n

/-- Field tag accessor. -/
def FieldDecl.tag : FieldDecl → List Char
  | ⟨_, t, _, _⟩ => t

/-- Exported flag accessor. -/
def FieldDecl.exported : FieldDecl → Bool
  | ⟨_, _, e, _⟩ => e

/-- Field type accessor. -/
def FieldDecl.ty : FieldDecl → FieldType
  | ⟨_, _, _, t⟩ => t

/-- The wire key of a field: the `ben` tag if non-empty, otherwise the
field name (the rule shared by `marshalDict` and `unmarshalDict`). -/
def wireKey (f : FieldDecl) : List Char :=
  if f.tag ≠ [] then f.tag else f.name

/-- A runtime value.  `vPtr none` is a nil struct pointer, `vRaw none` a
nil `*RawMessage`, `vMap none` a nil map and `vMap (some es)` a non-nil
map with entry list `es`. -/
inductive Value where
  | vInt (i : Int)
  | vUint (n : Nat)
  | vStr (s : List Char)
  | vBool (b : Bool)
  | vSlice (elems : List Value)
  | vPtr (fields : Option (List Value))
  | vRaw (rm : Option RawMessage)
  | vMap (entries : Option (List (List Char × Value)))

/-- The `reflect.Kind` of a declared type. -/
def kindOfTy : FieldType → GoKind
  | .tInt64 => .kInt64
  | .tUint64 => .kUint64
  | .tString => .kString
  | .tBool => .kBool
  | .tSlice _ => .kSlice
  | .tPtr _ => .kPtr
  | .tRawPtr => .kPtr
  | .tMap => .kMap

/-- The `reflect.Kind` of a POD scalar. -/
def podKind : POD → GoKind
  | .i _ => .kInt64
  | .u _ => .kUint64
  | .s _ => .kString

/-- Errors of the reflective layer.  The `err…` constructors are the
`fmt.Errorf` values the source returns; the `panic…` constructors model
reflect panics (`Value.Type` on the zero `Value` obtained from `Elem` of
a nil pointer; `Elem`/`Set` on inappropriate kinds). -/
inductive MErr where
  | errNotPOD (k : GoKind)
  | errMismatch (got want : GoKind)
  | errNotSlice (k : GoKind)
  | errNotPtrMap (k : GoKind)
  | errNotStruct (k : GoKind)
  | errField (key : List Char) (e : MErr)
  | panicZeroValue
  | panicReflect
deriving DecidableEq, Repr

mutual
/-- The zero `reflect.Value` of a declared type. -/
def zeroValue : FieldType → Value
  | .tInt64 => .vInt 0
  | .tUint64 => .vUint 0
  | .tString => .vStr []
  | .tBool => .vBool false
  | .tSlice _ => .vSlice []
  | .tPtr _ => .vPtr none
  | .tRawPtr => .vRaw none
  | .tMap => .vMap none

/-- Zero values of a field list (a freshly allocated struct). -/
def zeroValues : List FieldDecl → List Value
  | [] => []
  | f :: fl => zeroValue f.ty :: zeroValues fl
end

/-- Conversion `int64(u)` for a `uint64` value: reinterpretation modulo `2^64`,
without any range check. -/
def toInt64 (n : Nat) : Int :=
  let m : Nat := n % 2 ^ 64
  if m < 2 ^ 63 then (m : Int) else (m : Int) - 2 ^ 64

/-- Models `unmarshalPOD`, with the target given by its declared type: the `isPOD`
guard always passes (our `POD` carries exactly the three POD kinds), the
`Int64 ← Uint64` widening is reinterpretation via `int64(...)`, any other
kind difference is the "mismatched type got: k want: podk" error, and a
matching kind stores the scalar. -/
def unmarshalPOD (p : POD) (ty : FieldType) : Except MErr Value :=
  match ty, p with
  | .tInt64, .u n => .ok (.vInt (toInt64 n))
  | .tInt64, .i i => .ok (.vInt i)
  | .tUint64, .u n => .ok (.vUint n)
  | .tString, .s s => .ok (.vStr s)
  | ty, p => .error (.errMismatch (kindOfTy ty) (podKind p))

/-- The wire-key → field lookup built by `unmarshalDict` for a struct
target: a Go map insert for every exported field in declaration order, so
on duplicate keys the later field wins.  Returns the field's index. -/
def fieldIndex : List FieldDecl → List Char → Option Nat
  | [], _ => none
  | f :: fl, k =>
    match fieldIndex fl k with
    | some j => some (j + 1)
    | none => if f.exported && wireKey f = k then some 0 else none

mutual

/-- Models `unmarshalList`: the target must be a slice (else the "not a Slice"
error); iterate the wire list with `unmarshalListAux`. -/
def unmarshalList (ty : FieldType) (l : List RawMessage) (cur : Value) :
    Except MErr Value :=
  match ty, cur with
  | .tSlice e, .vSlice es =>
    match unmarshalListAux e l es 0 with
    | .ok es' => .ok (.vSlice es')
    | .error err => .error err
  | ty, _ => .error (.errNotSlice (kindOfTy ty))

/-- The loop of `unmarshalList`: per element append a zero value, then
update slot `i` (the loop counter — it indexes from 0 even when the
target slice was non-empty, exactly as `v.Index(i)` does). -/
def unmarshalListAux (ety : FieldType) :
    List RawMessage → List Value → Nat → Except MErr (List Value)
  | [], acc, _ => .ok acc
  | rm :: t, acc, i =>
    let acc1 := acc ++ [zeroValue ety]
    match injectElemL ety rm (acc1.getD i (zeroValue ety)) with
    | .error e => .error e
    | .ok v' => unmarshalListAux ety t (acc1.set i v') (i + 1)

/-- The per-element switch of `unmarshalList`: `*RawMessage` elements
store the node, then pod / list / dict dispatch; note there is no map
case here — a dict wire value for a non-pointer element hits
`reflect.New(elem.Elem())`, a panic for the POD/map kinds.  An empty
`RawMessage` matches no case and leaves the element as appended. -/
def injectElemL (ety : FieldType) (rm : RawMessage) (cur : Value) :
    Except MErr Value :=
  match ety, rm with
  | .tRawPtr, rm => .ok (.vRaw (some rm))
  | ety, ⟨some p, _, _⟩ => unmarshalPOD p ety
  | ety, ⟨none, l :: ls, _⟩ => unmarshalList ety (l :: ls) cur
  | ety, ⟨none, [], kv :: kvs⟩ =>
    match ety with
    | .tPtr fl => unmarshalDictGo (.tPtr fl) (kv :: kvs) (.vPtr (some (zeroValues fl)))
    | _ => .error .panicReflect
  | _, ⟨none, [], []⟩ => .ok cur

/-- Models `unmarshalDict`: the target must be a pointer or a map.  For a struct
pointer the field map is built (`fieldIndex`) and the entry loop runs
over the field values; for a map target the field map is empty, so the
loop is run with no fields and the map value is returned unchanged.  A
nil struct pointer reaches `val.Elem().Type()`, a reflect panic. -/
def unmarshalDictGo (ty : FieldType) (d : List (List Char × RawMessage))
    (cur : Value) : Except MErr Value :=
  match ty, cur with
  | .tPtr fl, .vPtr (some vs) =>
    match dictLoop fl d vs with
    | .ok vs' => .ok (.vPtr (some vs'))
    | .error e => .error e
  | .tPtr _, .vPtr none => .error .panicZeroValue
  | .tMap, .vMap m =>
    match dictLoop [] d [] with
    | .ok _ => .ok (.vMap m)
    | .error e => .error e
  | ty, _ => .error (.errNotPtrMap (kindOfTy ty))

/-- The entry loop of `unmarshalDict`: keys with no matching field are
skipped (`continue`); a hit updates the field via `injectFieldD`, and an
error is wrapped with the key (`"field: %q: %v"`). -/
def dictLoop (fl : List FieldDecl) :
    List (List Char × RawMessage) → List Value → Except MErr (List Value)
  | [], vs => .ok vs
  | (k, rm) :: t, vs =>
    match fieldIndex fl k with
    | none => dictLoop fl t vs
    | some i =>
      let fty := (fl.getD i ⟨[], [], true, .tInt64⟩).ty
      match injectFieldD fty rm (vs.getD i (zeroValue fty)) with
      | .error e => .error (.errField k e)
      | .ok v' => dictLoop fl t (vs.set i v')

/-- The per-entry switch of `unmarshalDict`: like `injectElemL`, but the
dict case distinguishes a map field (freshly `MakeMap`-ed, so non-nil and
empty) from a struct-pointer field (freshly allocated zero struct). -/
def injectFieldD (fty : FieldType) (rm : RawMessage) (cur : Value) :
    Except MErr Value :=
  match fty, rm with
  | .tRawPtr, rm => .ok (.vRaw (some rm))
  | fty, ⟨some p, _, _⟩ => unmarshalPOD p fty
  | fty, ⟨none, l :: ls, _⟩ => unmarshalList fty (l :: ls) cur
  | fty, ⟨none, [], kv :: kvs⟩ =>
    match fty with
    | .tMap => unmarshalDictGo .tMap (kv :: kvs) (.vMap (some []))
    | .tPtr fl => unmarshalDictGo (.tPtr fl) (kv :: kvs) (.vPtr (some (zeroValues fl)))
    | _ => .error .panicReflect
  | _, ⟨none, [], []⟩ => .ok cur

end

/-- Models `marshalPOD`: nil when the value equals its type's zero value,
otherwise a `RawMessage` holding the scalar.  Callers only reach it for
the three POD kinds. -/
def marshalPOD : Value → Option RawMessage
  | .vInt i => if i = 0 then none else some ⟨some (.i i), [], []⟩
  | .vUint n => if n = 0 then none else some ⟨some (.u n), [], []⟩
  | .vStr s => if s = [] then none else some ⟨some (.s s), [], []⟩
  | _ => none

mutual

/-- Models `marshalList`: nil for a zero-length slice, otherwise the list of the
elements' marshalled nodes; elements that marshal to nil (zero scalars,
empty nested slices) and elements of kinds outside the switch are
skipped. -/
def marshalList (ety : FieldType) (es : List Value) :
    Except MErr (Option RawMessage) :=
  match es with
  | [] => .ok none
  | e :: es' =>
    match marshalListAux ety (e :: es') with
    | .ok ls => .ok (some ⟨none, ls, []⟩)
    | .error err => .error err

/-- The kind switch shared verbatim by the loops of `marshalList` and
`marshalDict`: POD kinds → `marshalPOD`, slice → `marshalList`, pointer
→ `marshalDictGo`; a kind outside the switch leaves the result nil (and
is then skipped by the caller). -/
def marshalValue (ety : FieldType) (v : Value) : Except MErr (Option RawMessage) :=
  match ety, v with
  | .tInt64, v => .ok (marshalPOD v)
  | .tUint64, v => .ok (marshalPOD v)
  | .tString, v => .ok (marshalPOD v)
  | .tSlice e, .vSlice es' => marshalList e es'
  | .tPtr fl, v => marshalDictGo (.tPtr fl) v
  | .tRawPtr, v => marshalDictGo .tRawPtr v
  | _, _ => .ok none

/-- The element loop of `marshalList`. -/
def marshalListAux (ety : FieldType) : List Value → Except MErr (List RawMessage)
  | [] => .ok []
  | v :: t =>
    match marshalValue ety v with
    | .error e => .error e
    | .ok m? =>
      match marshalListAux ety t with
      | .error e => .error e
      | .ok rest => .ok (match m? with | some m => m :: rest | none => rest)

/-- Models `marshalDict`: dereference the pointer (a reflect panic when nil),
pass a `*RawMessage` through as-is, otherwise marshal the struct's
exported fields. -/
def marshalDictGo (ty : FieldType) (v : Value) : Except MErr (Option RawMessage) :=
  match ty, v with
  | .tRawPtr, .vRaw none => .error .panicZeroValue
  | .tRawPtr, .vRaw (some rm) => .ok (some rm)
  | .tPtr _, .vPtr none => .error .panicZeroValue
  | .tPtr fl, .vPtr (some vs) =>
    match marshalFields fl vs with
    | .ok kvs => .ok (some ⟨none, [], kvs⟩)
    | .error e => .error e
  | ty, _ => .error (.errNotStruct (kindOfTy ty))

/-- The field loop of `marshalDict`: skip unexported fields; compute the
wire key; switch on the field kind (POD / slice / pointer, anything else
leaves `kv.V` nil); append the pair only when `kv.V` is non-nil.  Errors
propagate unwrapped, exactly as in the source. -/
def marshalFields : List FieldDecl → List Value → Except MErr (List (List Char × RawMessage))
  | [], _ => .ok []
  | _ :: _, [] => .ok []
  | f :: fl, v :: vt =>
    if f.exported then
      match marshalValue f.ty v with
      | .error e => .error e
      | .ok m? =>
        match marshalFields fl vt with
        | .error e => .error e
        | .ok rest => .ok (match m? with | some m => (wireKey f, m) :: rest | none => rest)
    else
      marshalFields fl vt

end

/-! ## Well-formed schemas and non-zero typed values (for the
marshal/unmarshal round trip) -/

/-- Predicate `keyNotIn k fl`: no field of `fl` has wire key `k`. -/
def keyNotIn (k : List Char) : List FieldDecl → Bool
  | [] => true
  | f :: fl => !(wireKey f = k : Bool) && keyNotIn k fl

/-- All wire keys of `fl` are pairwise distinct. -/
def nodupKeysB : List FieldDecl → Bool
  | [] => true
  | f :: fl => keyNotIn (wireKey f) fl && nodupKeysB fl

mutual
/-- The field shapes of the supported round-trip surface — `int64`,
`uint64`, `string`, slices thereof, and struct pointers — with struct
types well-formed: non-empty, all fields exported and supported, wire
keys distinct. -/
def supportedTy : FieldType → Bool
  | .tInt64 => true
  | .tUint64 => true
  | .tString => true
  | .tSlice e => supportedTy e
  | .tPtr fl => !fl.isEmpty && fieldsOK fl && nodupKeysB fl
  | _ => false

/-- Every field exported with a supported type. -/
def fieldsOK : List FieldDecl → Bool
  | [] => true
  | ⟨_, _, ex, ty⟩ :: fl => ex && supportedTy ty && fieldsOK fl
end

mutual
/-- Predicate: `v` inhabits `ty` and is recursively non-zero/non-empty: integers
non-zero, strings and slices non-empty, struct pointers non-nil, and the
same recursively for every element and field. -/
def typedNZ : FieldType → Value → Bool
  | .tInt64, .vInt i => decide (i ≠ 0)
  | .tUint64, .vUint n => decide (n ≠ 0)
  | .tString, .vStr s => !s.isEmpty
  | .tSlice e, .vSlice es => !es.isEmpty && typedNZList e es
  | .tPtr fl, .vPtr (some vs) => typedNZFields fl vs
  | _, _ => false

/-- All elements `typedNZ`. -/
def typedNZList : FieldType → List Value → Bool
  | _, [] => true
  | e, v :: t => typedNZ e v && typedNZList e t

/-- Field values matching the declarations one-to-one, each `typedNZ`. -/
def typedNZFields : List FieldDecl → List Value → Bool
  | [], [] => true
  | f :: fl, v :: vt => typedNZ f.ty v && typedNZFields fl vt
  | _, _ => false
end

/-- Element at the junction point of an append. -/
theorem getD_append_len {α : Type} (a : List α) (c : α) (b : List α) (d : α) :
    (a ++ c :: b).getD a.length d = c := by
  induction a with
  | nil => rfl
  | cons x a' ih => simp only [List.cons_append, List.length_cons, List.getD_cons_succ]; exact ih

/-- Setting at the junction point of an append. -/
theorem set_append_len {α : Type} (a : List α) (c : α) (b : List α) (v : α) :
    (a ++ c :: b).set a.length v = a ++ v :: b := by
  induction a with
  | nil => rfl
  | cons x a' ih => simp only [List.cons_append, List.length_cons, List.set_cons_succ]; rw [ih]

theorem keyNotIn_fieldIndex_none (k : List Char) (fl : List FieldDecl)
    (h : keyNotIn k fl = true) : fieldIndex fl k = none := by
  induction fl with
  | nil => rfl
  | cons f fl' ih =>
    have hsplit : ¬ (wireKey f = k) ∧ keyNotIn k fl' = true := by
      simpa [keyNotIn, Bool.and_eq_true] using h
    rw [fieldIndex, ih hsplit.2]
    simp [hsplit.1]

theorem fieldIndex_append (a b : List FieldDecl) (k : List Char) :
    fieldIndex (a ++ b) k =
      match fieldIndex b k with
      | some j => some (a.length + j)
      | none => fieldIndex a k := by
  induction a with
  | nil => cases h : fieldIndex b k <;> simp [h, fieldIndex]
  | cons f a' ih =>
    rw [List.cons_append, fieldIndex, ih, fieldIndex]
    cases h : fieldIndex b k with
    | none => rfl
    | some j =>
      simp only []
      cases h2 : fieldIndex a' k <;> simp [Nat.add_assoc, Nat.add_comm j 1]

theorem nodup_extract (a : List FieldDecl) (f : FieldDecl) (b : List FieldDecl)
    (h : nodupKeysB (a ++ f :: b) = true) : keyNotIn (wireKey f) b = true := by
  induction a with
  | nil =>
    have hsplit : keyNotIn (wireKey f) b = true ∧ nodupKeysB b = true := by
      simpa [nodupKeysB, Bool.and_eq_true] using h
    exact hsplit.1
  | cons x a' ih =>
    have hsplit : keyNotIn (wireKey x) (a' ++ f :: b) = true ∧
        nodupKeysB (a' ++ f :: b) = true := by
      simpa [nodupKeysB, Bool.and_eq_true] using h
    exact ih hsplit.2

/-- With pairwise-distinct keys, the key of the field at the junction of
`a ++ f :: b` looks up to exactly that field's index. -/
theorem fieldIndex_of_nodup (a : List FieldDecl) (f : FieldDecl) (b : List FieldDecl)
    (hex : f.exported = true) (h : nodupKeysB (a ++ f :: b) = true) :
    fieldIndex (a ++ f :: b) (wireKey f) = some a.length := by
  have hb : fieldIndex b (wireKey f) = none :=
    keyNotIn_fieldIndex_none _ _ (nodup_extract a f b h)
  have hfb : fieldIndex (f :: b) (wireKey f) = some 0 := by
    rw [fieldIndex, hb]
    simp [hex]
  rw [fieldIndex_append, hfb]
  simp

/-- The entry loop with an empty field map (a map-kind target) skips
every key and touches nothing. -/
theorem dictLoop_nil_fields (d : List (List Char × RawMessage)) (vs : List Value) :
    dictLoop [] d vs = .ok vs := by
  induction d with
  | nil => rw [dictLoop]
  | cons kv t ih =>
    obtain ⟨k, rm⟩ := kv
    rw [dictLoop]
    simp only [fieldIndex]
    exact ih

/-! ## Lemmas: decimal formatting and parsing -/

/-- Value of a most-significant-first digit string. -/
def digitsVal : List Char → Nat
  | [] => 0
  | c :: t => digitVal c * 10 ^ t.length + digitsVal t

theorem digitChar_spec (n : Nat) (h : n < 10) :
    isDigitB (digitChar n) = true ∧ digitVal (digitChar n) = n ∧
    digitChar n ≠ 'e' ∧ digitChar n ≠ ':' ∧ digitChar n ≠ '-' ∧
    (n ≠ 0 → digitChar n ≠ '0') := by
  interval_cases n <;> refine ⟨by decide, by decide, by decide, by decide, by decide, ?_⟩ <;>
    intro h <;> first | exact absurd rfl h | decide

theorem digitVal_le (c : Char) (h : isDigitB c = true) : digitVal c ≤ 9 := by
  have h1 : '0' ≤ c ∧ c ≤ '9' := by simpa [isDigitB] using h
  have h2 : c.toNat ≤ 57 := h1.2
  simp only [digitVal]
  omega

theorem digitsVal_append (xs : List Char) (c : Char) :
    digitsVal (xs ++ [c]) = 10 * digitsVal xs + digitVal c := by
  induction xs with
  | nil => simp [digitsVal]
  | cons x t ih =>
    have hl : (t ++ [c]).length = t.length + 1 := by simp
    simp only [List.cons_append, digitsVal, ih, List.append_eq, hl, pow_succ]
    ring

theorem natDecAux_spec (fuel : Nat) : ∀ n, n < fuel →
    natDecAux fuel n ≠ [] ∧
    (∀ c ∈ natDecAux fuel n, isDigitB c = true ∧ c ≠ 'e' ∧ c ≠ ':' ∧ c ≠ '-') ∧
    digitsVal (natDecAux fuel n) = n ∧
    (n ≠ 0 → ∃ c t, natDecAux fuel n = c :: t ∧ c ≠ '0') := by
  induction fuel with
  | zero => intro n hn; omega
  | succ fuel ih =>
    intro n _
    rw [natDecAux]
    by_cases h : n < 10
    · obtain ⟨d1, d2, d3, d4, d5, d6⟩ := digitChar_spec n h
      simp only [h, if_pos]
      refine ⟨by simp, ?_, by simp [digitsVal, d2], ?_⟩
      · intro c hc; simp only [List.mem_singleton] at hc; subst hc
        exact ⟨d1, d3, d4, d5⟩
      · intro hn; exact ⟨digitChar n, [], rfl, d6 hn⟩
    · have hd : n / 10 < fuel := by omega
      obtain ⟨ih1, ih2, ih3, ih4⟩ := ih (n / 10) hd
      have hm : n % 10 < 10 := Nat.mod_lt _ (by omega)
      obtain ⟨d1, d2, d3, d4, d5, _⟩ := digitChar_spec (n % 10) hm
      simp only [h, if_neg, not_false_iff]
      refine ⟨by simp, ?_, ?_, ?_⟩
      · intro c hc
        rcases List.mem_append.mp hc with hc | hc
        · exact ih2 c hc
        · simp only [List.mem_singleton] at hc; subst hc; exact ⟨d1, d3, d4, d5⟩
      · rw [digitsVal_append, ih3, d2]; omega
      · intro _
        obtain ⟨c, t, ht, hc⟩ := ih4 (by omega)
        exact ⟨c, t ++ [digitChar (n % 10)], by rw [ht]; rfl, hc⟩

theorem natDec_spec (n : Nat) :
    natDec n ≠ [] ∧ (∀ c ∈ natDec n, isDigitB c = true ∧ c ≠ 'e' ∧ c ≠ ':' ∧ c ≠ '-') ∧
    digitsVal (natDec n) = n ∧ (n ≠ 0 → ∃ c t, natDec n = c :: t ∧ c ≠ '0') :=
  natDecAux_spec (n + 1) n (by omega)

theorem parseDigitsLoop_ok (s : List Char) :
    ∀ acc, (∀ c ∈ s, isDigitB c = true) →
    acc * 10 ^ s.length + digitsVal s ≤ u64Max →
    parseDigitsLoop 10 acc s = .ok (acc * 10 ^ s.length + digitsVal s) := by
  induction s with
  | nil => intro acc _ _; simp [parseDigitsLoop, digitsVal]
  | cons c t ih =>
    intro acc hdig hle
    have hc : isDigitB c = true := hdig c (by simp)
    have hd9 : digitVal c ≤ 9 := digitVal_le c hc
    have hpow : (1 : Nat) ≤ 10 ^ t.length := Nat.one_le_pow _ _ (by omega)
    have hval : acc * 10 ^ (c :: t).length + digitsVal (c :: t)
        = (acc * 10 + digitVal c) * 10 ^ t.length + digitsVal t := by
      simp only [List.length_cons, digitsVal, pow_succ]
      ring
    rw [hval] at hle ⊢
    have hcut : ¬ (u64Max / 10 + 1 ≤ acc) := by
      intro hcon
      have h1 : acc * 10 ≤ (acc * 10 + digitVal c) * 10 ^ t.length + digitsVal t :=
        le_trans (Nat.le_add_right _ _)
          (le_trans (Nat.le_mul_of_pos_right _ (by omega)) (Nat.le_add_right _ _))
      have h2 : acc * 10 ≤ u64Max := le_trans h1 hle
      have h3 : acc ≤ u64Max / 10 := (Nat.le_div_iff_mul_le (by omega)).mpr h2
      omega
    have hmax : ¬ (u64Max < acc * 10 + digitVal c) := by
      intro hcon
      have h1 : acc * 10 + digitVal c ≤ (acc * 10 + digitVal c) * 10 ^ t.length + digitsVal t :=
        le_trans (Nat.le_mul_of_pos_right _ (by omega)) (Nat.le_add_right _ _)
      omega
    rw [parseDigitsLoop]
    simp only [hc, if_true, hcut, if_false, hmax]
    have hb : ¬ (10 ≤ digitVal c) := by omega
    simp only [hb, if_false]
    exact ih (acc * 10 + digitVal c) (fun x hx => hdig x (List.mem_cons_of_mem _ hx)) hle

theorem goParseUint_natDec (n : Nat) (h : n ≤ u64Max) :
    goParseUint (natDec n) = .ok n := by
  obtain ⟨hne, hdig, hval, hhead⟩ := natDec_spec n
  by_cases h0 : n = 0
  · subst h0
    rw [show natDec 0 = ['0'] from by rw [natDec]; rfl]
    rw [goParseUint, parseDigitsLoop]
  · obtain ⟨c, t, ht, hc⟩ := hhead h0
    have hvt : digitsVal (c :: t) = n := by rw [← ht]; exact hval
    have hloop : parseDigitsLoop 10 0 (c :: t) = .ok n := by
      have hall : ∀ x ∈ c :: t, isDigitB x = true := by
        intro x hx
        exact (hdig x (by rw [ht]; exact hx)).1
      have hb : 0 * 10 ^ (c :: t).length + digitsVal (c :: t) ≤ u64Max := by
        simpa [hvt] using h
      have := parseDigitsLoop_ok (c :: t) 0 hall hb
      simpa [hvt] using this
    rw [ht, goParseUint.eq_def]
    split
    · rename_i heq; exact absurd heq (by simp)
    · rename_i rest heq; exact absurd (List.cons.inj heq).1 hc
    · exact hloop

theorem pow63_le_u64Max : (2 : Nat) ^ 63 ≤ u64Max := by norm_num [u64Max]

theorem goParseInt_neg (i : Int) (hneg : i < 0) (hrange : -(2 ^ 63 : Int) ≤ i) :
    goParseInt ('-' :: natDec i.natAbs) = .ok i := by
  have h1 : i.natAbs ≤ 2 ^ 63 := by omega
  have h2 : i.natAbs ≤ u64Max := le_trans h1 pow63_le_u64Max
  have hlt : ¬ (i64Cut < i.natAbs) := by
    simp only [i64Cut, not_lt]
    exact h1
  rw [goParseInt]
  simp only [if_pos rfl, if_true, goParseUint_natDec i.natAbs h2, if_neg hlt]
  have he : -((i.natAbs : Nat) : Int) = i := by omega
  rw [he]

/-! ## Lemmas: the token readers -/

theorem intBuf_append (delim : Char) (tok rest : List Char)
    (h : ∀ c ∈ tok, (c = '-' ∨ isDigitB c = true) ∧ c ≠ delim) :
    intBuf delim (tok ++ delim :: rest) = .ok (tok, rest) := by
  induction tok with
  | nil => simp [intBuf]
  | cons c t ih =>
    obtain ⟨hc, hne⟩ := h c (by simp)
    have hrec := ih (fun x hx => h x (List.mem_cons_of_mem _ hx))
    rw [List.cons_append, intBuf]
    rw [if_neg hne, if_pos (by simpa using hc), hrec]

theorem strBuf_append (s rest : List Char) (h : s.length ≤ u64Max) :
    strBuf (natDec s.length ++ ':' :: (s ++ rest)) = .ok (s, rest) := by
  obtain ⟨_, hdig, _, _⟩ := natDec_spec s.length
  have hlen : ¬ ((s ++ rest).length < s.length) := by simp
  rw [strBuf, intBuf_append ':' _ _
    (fun c hc => ⟨Or.inr (hdig c hc).1, (hdig c hc).2.2.1⟩)]
  simp only [goParseUint_natDec s.length h]
  rw [if_neg hlen, List.take_left, List.drop_left]

/-! ## Canonical values and fuel accounting

A `RawMessage` is canonical when it is shaped exactly as the decoder
builds values: one active variant, integers within their 64-bit ranges
with negatives signed and non-negatives unsigned, string lengths within
`uint64`, and lists/dicts non-empty (the decoder never produces an empty
`L`/`D` slice — an empty wire list yields the all-nil message).  The
image of `encodeRM` on canonical values is exactly the set of wire
strings in canonical form. -/

/-- Canonical scalar: a signed integer is negative and within `int64`
range (the decoder only parses signed on a leading `'-'`), an unsigned
one is within `uint64`, a string's length fits `uint64`. -/
def canonPOD : POD → Bool
  | .i v => decide (v < 0) && decide (-(2 ^ 63 : Int) ≤ v)
  | .u v => decide (v ≤ u64Max)
  | .s s => decide (s.length ≤ u64Max)

mutual
/-- Canonical `RawMessage`: exactly one active variant, recursively
canonical, with non-empty list/dict slices. -/
def canonRM : RawMessage → Bool
  | ⟨some p, l, d⟩ => canonPOD p && l.isEmpty && d.isEmpty
  | ⟨none, x :: xs, d⟩ => d.isEmpty && canonList (x :: xs)
  | ⟨none, [], y :: ys⟩ => canonDict (y :: ys)
  | ⟨none, [], []⟩ => false

/-- All elements canonical. -/
def canonList : List RawMessage → Bool
  | [] => true
  | v :: t => canonRM v && canonList t

/-- All keys within `uint64` length, all values canonical. -/
def canonDict : List (List Char × RawMessage) → Bool
  | [] => true
  | (k, v) :: t => decide (k.length ≤ u64Max) && canonRM v && canonDict t
end

mutual
/-- Fuel sufficient for `decodeRM` on the encoding of a canonical value:
one unit for the call itself plus what the loop needs. -/
def needRM : RawMessage → Nat
  | ⟨some _, _, _⟩ => 1
  | ⟨none, x :: xs, _⟩ => 1 + needList (x :: xs)
  | ⟨none, [], d⟩ => 1 + needDict d

/-- Fuel for `decodeLoopL` on an encoded element list (the terminator
check costs one call). -/
def needList : List RawMessage → Nat
  | [] => 1
  | v :: t => 1 + max (needRM v) (needList t)

/-- Fuel for `decodeLoopD` on an encoded entry list. -/
def needDict : List (List Char × RawMessage) → Nat
  | [] => 1
  | (_, v) :: t => 1 + max (needRM v) (needDict t)
end

theorem needRM_pos (v : RawMessage) : 1 ≤ needRM v := by
  match v with
  | ⟨some _, _, _⟩ => simp [needRM]
  | ⟨none, x :: xs, _⟩ => simp [needRM]
  | ⟨none, [], d⟩ => simp [needRM]

/-- The first byte of a canonical encoding is never the terminator (it is
a digit, `'i'`, `'l'` or `'d'`). -/
theorem encodeRM_head (v : RawMessage) (h : canonRM v = true) :
    ∃ c cs, encodeRM v = c :: cs ∧ c ≠ 'e' := by
  match v with
  | ⟨some p, l, d⟩ =>
    match p with
    | .i x => exact ⟨'i', _, rfl, by decide⟩
    | .u x => exact ⟨'i', _, rfl, by decide⟩
    | .s s =>
      obtain ⟨hne, hdig, _, _⟩ := natDec_spec s.length
      obtain ⟨c, cs, hcs⟩ := List.exists_cons_of_ne_nil hne
      refine ⟨c, cs ++ ':' :: s, ?_, (hdig c (by rw [hcs]; simp)).2.1⟩
      show encodePOD (.s s) = _
      rw [encodePOD, hcs]
      simp
  | ⟨none, x :: xs, d⟩ => exact ⟨'l', _, rfl, by decide⟩
  | ⟨none, [], y :: ys⟩ => exact ⟨'d', _, rfl, by decide⟩
  | ⟨none, [], []⟩ => exact absurd h (by rw [canonRM]; simp)

/-- Decoding the encoding of a canonical scalar consumes exactly it and
rebuilds the same pod (at any successor fuel — the scalar branches make
no recursive call). -/
theorem decode_encodePOD (p : POD) (h : canonPOD p = true) (fuel : Nat)
    (r : List Char) :
    decodeRM (fuel + 1) (encodePOD p ++ r) = .ok (⟨some p, [], []⟩, r) := by
  match p with
  | .s s =>
    have hs : s.length ≤ u64Max := by simpa [canonPOD] using h
    obtain ⟨hne, hdig, _, _⟩ := natDec_spec s.length
    obtain ⟨c, cs, hcs⟩ := List.exists_cons_of_ne_nil hne
    have hmem : c ∈ natDec s.length := by rw [hcs]; simp
    have hcd : isDigitB c = true := (hdig c hmem).1
    have heq : encodePOD (.s s) ++ r = c :: (cs ++ ':' :: (s ++ r)) := by
      rw [encodePOD, hcs]
      simp
    rw [heq, decodeRM]
    have hsb : strBuf (c :: (cs ++ ':' :: (s ++ r))) = .ok (s, r) := by
      have := strBuf_append s r hs
      rw [hcs] at this
      simpa using this
    rw [if_pos hcd, hsb]
  | .u n =>
    have hn : n ≤ u64Max := by simpa [canonPOD] using h
    obtain ⟨hne, hdig, _, _⟩ := natDec_spec n
    obtain ⟨c, cs, hcs⟩ := List.exists_cons_of_ne_nil hne
    have hmem : c ∈ natDec n := by rw [hcs]; simp
    have heq : encodePOD (.u n) ++ r = 'i' :: (natDec n ++ 'e' :: r) := by
      rw [encodePOD]; simp
    rw [heq, decodeRM]
    have hib : intBuf 'e' (natDec n ++ 'e' :: r) = .ok (natDec n, r) :=
      intBuf_append 'e' _ r
        (fun x hx => ⟨Or.inr (hdig x hx).1, (hdig x hx).2.1⟩)
    rw [if_neg (by decide), if_pos rfl, hib, hcs]
    have hcne : ¬ (c = '-') := by
      intro hcon
      exact absurd hcon (hdig c hmem).2.2.2
    simp only [hcne, if_false]
    rw [← hcs, goParseUint_natDec n hn]
  | .i x =>
    have hx : x < 0 ∧ -(2 ^ 63 : Int) ≤ x := by simpa [canonPOD] using h
    have heq : encodePOD (.i x) ++ r = 'i' :: (('-' :: natDec x.natAbs) ++ 'e' :: r) := by
      rw [encodePOD, intDec, if_pos hx.1]
      simp
    rw [heq, decodeRM]
    obtain ⟨_, hdig, _, _⟩ := natDec_spec x.natAbs
    have hib : intBuf 'e' (('-' :: natDec x.natAbs) ++ 'e' :: r)
        = .ok ('-' :: natDec x.natAbs, r) := by
      refine intBuf_append 'e' _ r ?_
      intro cc hcc
      rcases List.mem_cons.mp hcc with hcc | hcc
      · subst hcc; exact ⟨Or.inl rfl, by decide⟩
      · exact ⟨Or.inr (hdig cc hcc).1, (hdig cc hcc).2.1⟩
    rw [if_neg (by decide), if_pos rfl, hib]
    simp [goParseInt_neg x hx.1 hx.2]

theorem needList_pos (l : List RawMessage) : 1 ≤ needList l := by
  cases l <;> simp [needList]

theorem needDict_pos (d : List (List Char × RawMessage)) : 1 ≤ needDict d := by
  match d with
  | [] => simp [needDict]
  | (k, v) :: t => simp [needDict]

/-- Main round-trip invariant, by strong induction on fuel: with enough
fuel, decoding the canonical encoding of a value (or of a list/dict loop
body followed by the terminator) consumes exactly it and rebuilds the
same value. -/
theorem dec_enc_all (fuel : Nat) :
    (∀ v r, canonRM v = true → needRM v ≤ fuel →
      decodeRM fuel (encodeRM v ++ r) = .ok (v, r)) ∧
    (∀ l r, canonList l = true → needList l ≤ fuel →
      decodeLoopL fuel (encodeList l ++ 'e' :: r) = .ok (l, r)) ∧
    (∀ d r, canonDict d = true → needDict d ≤ fuel →
      decodeLoopD fuel (encodeDict d ++ 'e' :: r) = .ok (d, r)) := by
  induction fuel using Nat.strong_induction_on with
  | _ fuel ih =>
  match fuel with
  | 0 =>
    refine ⟨fun v r _ hn => absurd hn (by have := needRM_pos v; omega),
      fun l r _ hn => absurd hn (by have := needList_pos l; omega),
      fun d r _ hn => absurd hn (by have := needDict_pos d; omega)⟩
  | fuel + 1 =>
    have ihf := ih fuel (Nat.lt_succ_self fuel)
    refine ⟨?_, ?_, ?_⟩
    · -- decodeRM on encodeRM
      intro v r hc hn
      obtain ⟨pod, l, d⟩ := v
      cases pod with
      | some p =>
        have hsplit : canonPOD p = true ∧ l = [] ∧ d = [] := by
          simpa [canonRM, Bool.and_eq_true, and_assoc] using hc
        obtain ⟨hp, hl, hd⟩ := hsplit
        subst hl; subst hd
        rw [show encodeRM ⟨some p, [], []⟩ = encodePOD p from rfl]
        exact decode_encodePOD p hp fuel r
      | none =>
        cases l with
        | cons x xs =>
          have hsplit : d.isEmpty = true ∧ canonList (x :: xs) = true := by
            simpa [canonRM, Bool.and_eq_true] using hc
          obtain ⟨hd, hcl⟩ := hsplit
          rw [List.isEmpty_iff] at hd
          subst hd
          have hneed : needList (x :: xs) ≤ fuel := by
            have : needRM ⟨none, x :: xs, []⟩ = 1 + needList (x :: xs) := rfl
            omega
          have heq : encodeRM ⟨none, x :: xs, []⟩ ++ r
              = 'l' :: (encodeList (x :: xs) ++ 'e' :: r) := by
            rw [show encodeRM ⟨none, x :: xs, []⟩
              = 'l' :: (encodeList (x :: xs) ++ ['e']) from rfl]
            simp
          rw [heq, decodeRM, if_neg (show ¬ (isDigitB 'l' = true) by decide),
            if_neg (show ¬ ('l' = 'i') by decide), if_pos rfl,
            ihf.2.1 (x :: xs) r hcl hneed]
        | nil =>
          cases d with
          | cons y ys =>
            have hcd : canonDict (y :: ys) = true := by
              simpa [canonRM] using hc
            have hneed : needDict (y :: ys) ≤ fuel := by
              have : needRM ⟨none, [], y :: ys⟩ = 1 + needDict (y :: ys) := rfl
              omega
            have heq : encodeRM ⟨none, [], y :: ys⟩ ++ r
                = 'd' :: (encodeDict (y :: ys) ++ 'e' :: r) := by
              rw [show encodeRM ⟨none, [], y :: ys⟩
                = 'd' :: (encodeDict (y :: ys) ++ ['e']) from rfl]
              simp
            rw [heq, decodeRM, if_neg (show ¬ (isDigitB 'd' = true) by decide),
              if_neg (show ¬ ('d' = 'i') by decide),
              if_neg (show ¬ ('d' = 'l') by decide), if_pos rfl,
              ihf.2.2 (y :: ys) r hcd hneed]
          | nil => exact absurd hc (by simp [canonRM])
    · -- decodeLoopL on encodeList ++ 'e'
      intro l r hc hn
      cases l with
      | nil =>
        rw [show encodeList [] ++ 'e' :: r = 'e' :: r from rfl, decodeLoopL, if_pos rfl]
      | cons v t =>
        have hsplit : canonRM v = true ∧ canonList t = true := by
          simpa [canonList, Bool.and_eq_true] using hc
        obtain ⟨hv, ht⟩ := hsplit
        have hneedv : needRM v ≤ fuel := by
          have : needList (v :: t) = 1 + max (needRM v) (needList t) := rfl
          omega
        have hneedt : needList t ≤ fuel := by
          have : needList (v :: t) = 1 + max (needRM v) (needList t) := rfl
          omega
        obtain ⟨c, cs, hcs, hcne⟩ := encodeRM_head v hv
        have heq : encodeList (v :: t) ++ 'e' :: r
            = c :: (cs ++ (encodeList t ++ 'e' :: r)) := by
          rw [show encodeList (v :: t) = encodeRM v ++ encodeList t from rfl, hcs]
          simp
        have hdec : decodeRM fuel (c :: (cs ++ (encodeList t ++ 'e' :: r)))
            = .ok (v, encodeList t ++ 'e' :: r) := by
          have := ihf.1 v (encodeList t ++ 'e' :: r) hv hneedv
          rw [hcs] at this
          simpa using this
        rw [heq, decodeLoopL, if_neg hcne]
        simp only [hdec, ihf.2.1 t r ht hneedt]
    · -- decodeLoopD on encodeDict ++ 'e'
      intro d r hc hn
      cases d with
      | nil =>
        rw [show encodeDict [] ++ 'e' :: r = 'e' :: r from rfl, decodeLoopD, if_pos rfl]
      | cons kv t =>
        obtain ⟨k, v⟩ := kv
        have hsplit : k.length ≤ u64Max ∧ canonRM v = true ∧ canonDict t = true := by
          simpa [canonDict, Bool.and_eq_true, and_assoc] using hc
        obtain ⟨hk, hv, ht⟩ := hsplit
        have hneedv : needRM v ≤ fuel := by
          have : needDict ((k, v) :: t) = 1 + max (needRM v) (needDict t) := rfl
          omega
        have hneedt : needDict t ≤ fuel := by
          have : needDict ((k, v) :: t) = 1 + max (needRM v) (needDict t) := rfl
          omega
        have hfuel1 : 1 ≤ fuel := by
          have := needRM_pos v
          omega
        obtain ⟨f, rfl⟩ : ∃ f, fuel = f + 1 := ⟨fuel - 1, by omega⟩
        obtain ⟨hkne, hkdig, _, _⟩ := natDec_spec k.length
        obtain ⟨c, cs, hcs⟩ := List.exists_cons_of_ne_nil hkne
        have hcne : ¬ (c = 'e') := (hkdig c (by rw [hcs]; simp)).2.1
        have heq : encodeDict ((k, v) :: t) ++ 'e' :: r
            = c :: (cs ++ ':' :: k ++ (encodeRM v ++ (encodeDict t ++ 'e' :: r))) := by
          rw [show encodeDict ((k, v) :: t)
            = encodePOD (.s k) ++ encodeRM v ++ encodeDict t from rfl]
          rw [show encodePOD (.s k) = natDec k.length ++ ':' :: k from rfl, hcs]
          simp
        have hkey : decodeRM (f + 1)
            (c :: (cs ++ ':' :: k ++ (encodeRM v ++ (encodeDict t ++ 'e' :: r))))
            = .ok (⟨some (.s k), [], []⟩, encodeRM v ++ (encodeDict t ++ 'e' :: r)) := by
          have hcank : canonPOD (.s k) = true := by simpa [canonPOD] using hk
          have := decode_encodePOD (.s k) hcank f
            (encodeRM v ++ (encodeDict t ++ 'e' :: r))
          rw [show encodePOD (.s k) = natDec k.length ++ ':' :: k from rfl, hcs] at this
          simpa using this
        rw [heq, decodeLoopD, if_neg hcne]
        simp only [hkey, ihf.1 v (encodeDict t ++ 'e' :: r) hv hneedv,
          ihf.2.2 t r ht hneedt]

theorem encodeRM_len_pos (v : RawMessage) (h : canonRM v = true) :
    1 ≤ (encodeRM v).length := by
  obtain ⟨c, cs, hcs, _⟩ := encodeRM_head v h
  rw [hcs]
  simp

/-- The fuel needed on a canonical encoding is at most its length plus
one (so `decodeTop`'s fuel is always sufficient). -/
theorem need_le_aux (n : Nat) :
    (∀ v : RawMessage, sizeOf v ≤ n → canonRM v = true →
      needRM v ≤ (encodeRM v).length + 1) ∧
    (∀ l : List RawMessage, sizeOf l ≤ n → canonList l = true →
      needList l ≤ (encodeList l).length + 2) ∧
    (∀ d : List (List Char × RawMessage), sizeOf d ≤ n → canonDict d = true →
      needDict d ≤ (encodeDict d).length + 2) := by
  induction n using Nat.strong_induction_on with
  | _ n ih =>
  refine ⟨?_, ?_, ?_⟩
  · intro v hs hc
    obtain ⟨pod, l, d⟩ := v
    cases pod with
    | some p =>
      have : needRM ⟨some p, l, d⟩ = 1 := rfl
      omega
    | none =>
      cases l with
      | cons x xs =>
        have hsplit : d = [] ∧ canonList (x :: xs) = true := by
          simpa [canonRM, Bool.and_eq_true] using hc
        obtain ⟨hd, hcl⟩ := hsplit
        subst hd
        have hsz : sizeOf (x :: xs) ≤ n - 1 ∧ 1 ≤ n := by
          have : sizeOf (RawMessage.mk none (x :: xs) []) ≤ n := hs
          simp only [RawMessage.mk.sizeOf_spec] at this
          omega
        have hb := (ih (n - 1) (by omega)).2.1 (x :: xs) hsz.1 hcl
        have h1 : needRM ⟨none, x :: xs, []⟩ = 1 + needList (x :: xs) := rfl
        have h2 : (encodeRM ⟨none, x :: xs, []⟩).length
            = (encodeList (x :: xs)).length + 2 := by
          rw [show encodeRM ⟨none, x :: xs, []⟩
            = 'l' :: (encodeList (x :: xs) ++ ['e']) from rfl]
          simp
        omega
      | nil =>
        cases d with
        | cons y ys =>
          have hcd : canonDict (y :: ys) = true := by simpa [canonRM] using hc
          have hsz : sizeOf (y :: ys) ≤ n - 1 ∧ 1 ≤ n := by
            have : sizeOf (RawMessage.mk none [] (y :: ys)) ≤ n := hs
            simp only [RawMessage.mk.sizeOf_spec] at this
            omega
          have hb := (ih (n - 1) (by omega)).2.2 (y :: ys) hsz.1 hcd
          have h1 : needRM ⟨none, [], y :: ys⟩ = 1 + needDict (y :: ys) := rfl
          have h2 : (encodeRM ⟨none, [], y :: ys⟩).length
              = (encodeDict (y :: ys)).length + 2 := by
            rw [show encodeRM ⟨none, [], y :: ys⟩
              = 'd' :: (encodeDict (y :: ys) ++ ['e']) from rfl]
            simp
          omega
        | nil => exact absurd hc (by simp [canonRM])
  · intro l hs hc
    cases l with
    | nil =>
      have : needList ([] : List RawMessage) = 1 := rfl
      omega
    | cons v t =>
      have hsplit : canonRM v = true ∧ canonList t = true := by
        simpa [canonList, Bool.and_eq_true] using hc
      obtain ⟨hv, ht⟩ := hsplit
      have hsz : sizeOf v ≤ n - 1 ∧ sizeOf t ≤ n - 1 ∧ 1 ≤ n := by
        have : sizeOf (v :: t) ≤ n := hs
        simp only [List.cons.sizeOf_spec] at this
        have hv1 : 1 ≤ sizeOf v := by
          obtain ⟨pod, l', d'⟩ := v
          simp [RawMessage.mk.sizeOf_spec]
          omega
        omega
      have hbv := (ih (n - 1) (by omega)).1 v hsz.1 hv
      have hbt := (ih (n - 1) (by omega)).2.1 t hsz.2.1 ht
      have hev := encodeRM_len_pos v hv
      have h1 : needList (v :: t) = 1 + max (needRM v) (needList t) := rfl
      have h2 : (encodeList (v :: t)).length
          = (encodeRM v).length + (encodeList t).length := by
        rw [show encodeList (v :: t) = encodeRM v ++ encodeList t from rfl]
        simp
      omega
  · intro d hs hc
    cases d with
    | nil =>
      have : needDict ([] : List (List Char × RawMessage)) = 1 := rfl
      omega
    | cons kv t =>
      obtain ⟨k, v⟩ := kv
      have hsplit : k.length ≤ u64Max ∧ canonRM v = true ∧ canonDict t = true := by
        simpa [canonDict, Bool.and_eq_true, and_assoc] using hc
      obtain ⟨_, hv, ht⟩ := hsplit
      have hsz : sizeOf v ≤ n - 1 ∧ sizeOf t ≤ n - 1 ∧ 1 ≤ n := by
        have : sizeOf ((k, v) :: t) ≤ n := hs
        simp only [List.cons.sizeOf_spec, Prod.mk.sizeOf_spec] at this
        omega
      have hbv := (ih (n - 1) (by omega)).1 v hsz.1 hv
      have hbt := (ih (n - 1) (by omega)).2.2 t hsz.2.1 ht
      have hev := encodeRM_len_pos v hv
      have h1 : needDict ((k, v) :: t) = 1 + max (needRM v) (needDict t) := rfl
      have h2 : (encodeDict ((k, v) :: t)).length
          = (encodePOD (.s k)).length + ((encodeRM v).length + (encodeDict t).length) := by
        rw [show encodeDict ((k, v) :: t)
          = encodePOD (.s k) ++ encodeRM v ++ encodeDict t from rfl]
        simp
      omega

/-- Decoding the encoding of any canonical value succeeds, consumes the
whole input, and rebuilds the value. -/
theorem decodeTop_encode (v : RawMessage) (h : canonRM v = true) :
    decodeTop (encodeRM v) = .ok (v, []) := by
  have hlen := (need_le_aux (sizeOf v)).1 v le_rfl h
  have hdec := (dec_enc_all ((encodeRM v).length + 1)).1 v [] h (by omega)
  rw [decodeTop]
  simpa using hdec

/-! ## Claim theorems: the wire codec -/

/-- C1 (counterexample): the wire input `"le"` — an empty list, which the
format's grammar (`'l' <value>* 'e'`) admits — decodes successfully with
nothing left over, but its decoded value (the all-nil `RawMessage`)
re-encodes to the empty byte string, not to `"le"`.  So decode-then-
re-encode is not the identity on all well-formed wire inputs. -/
theorem c1_empty_list_breaks_roundtrip :
    decodeTop ['l', 'e'] = .ok (⟨none, [], []⟩, []) ∧
    encodeRM ⟨none, [], []⟩ = [] ∧ ([] : List Char) ≠ ['l', 'e'] :=
  ⟨rfl, rfl, by decide⟩

/-- C1 (amended): byte-exact round trip holds on the encoder's image over
canonical values — inputs whose lists and dicts are all non-empty, whose
integers are canonically rendered within their 64-bit ranges (negative
signed, non-negative unsigned, no redundant leading zeros), and whose
lengths fit `uint64`; equivalently, any output of this encoder.  On such
an input, decoding consumes all of it and re-encoding the result
reproduces the input byte for byte. -/
theorem c1_roundtrip_on_encoder_image (b : List Char) (v : RawMessage)
    (hc : canonRM v = true) (he : encodeRM v = b) :
    ∃ v', decodeTop b = .ok (v', []) ∧ encodeRM v' = b := by
  subst he
  exact ⟨v, decodeTop_encode v hc, rfl⟩

theorem c1_roundtrip_on_encoder_image_witness :
    ∃ v', decodeTop ['d', '3', ':', 'c', 'o', 'w', '3', ':', 'm', 'o', 'o', 'e']
        = .ok (v', []) ∧
      encodeRM v' = ['d', '3', ':', 'c', 'o', 'w', '3', ':', 'm', 'o', 'o', 'e'] :=
  c1_roundtrip_on_encoder_image _
    ⟨none, [], [(['c', 'o', 'w'], ⟨some (.s ['m', 'o', 'o']), [], []⟩)]⟩
    (by decide) rfl

/-- C3: in the integer branch, the decoder inspects the token's first
byte: a leading `'-'` routes to the signed 64-bit parse and produces a
signed scalar, anything else routes to the unsigned 64-bit parse and
produces an unsigned scalar; in particular `"i3e"` decodes to unsigned 3
and `"i-3e"` to signed -3. -/
theorem c3_integer_sign_dispatch :
    decodeTop ['i', '3', 'e'] = .ok (⟨some (.u 3), [], []⟩, []) ∧
    decodeTop ['i', '-', '3', 'e'] = .ok (⟨some (.i (-3)), [], []⟩, []) ∧
    (∀ (fuel : Nat) (t : Char) (tok' rest : List Char),
      (∀ c ∈ t :: tok', (c = '-' ∨ isDigitB c = true) ∧ c ≠ 'e') →
      decodeRM (fuel + 1) ('i' :: ((t :: tok') ++ 'e' :: rest)) =
        if t = '-' then
          match goParseInt (t :: tok') with
          | .error e => .error e
          | .ok iv => .ok (⟨some (.i iv), [], []⟩, rest)
        else
          match goParseUint (t :: tok') with
          | .error e => .error e
          | .ok uv => .ok (⟨some (.u uv), [], []⟩, rest)) := by
  refine ⟨rfl, rfl, ?_⟩
  intro fuel t tok' rest h
  rw [decodeRM, if_neg (show ¬ (isDigitB 'i' = true) by decide), if_pos rfl,
    intBuf_append 'e' (t :: tok') rest h]

theorem c3_integer_sign_dispatch_witness :
    decodeRM 1 ('i' :: (['4', '2'] ++ 'e' :: [])) =
      match goParseUint ['4', '2'] with
      | .error e => .error e
      | .ok uv => .ok (⟨some (.u uv), [], []⟩, []) := by
  have h := c3_integer_sign_dispatch.2.2 0 '4' ['2'] []
    (by intro c hc; fin_cases hc <;> exact ⟨Or.inr (by decide), by decide⟩)
  simpa using h

/-- C4 (code evaluated at the failing input): on `"di3e0:e"` — a dict
whose key position holds the well-formed integer `i3e` — the decoder
reaches the `k.POD.(string)` type assertion with a `uint64` in the
interface and faults (modelled by the distinguished `panicTypeAssertion`
outcome), instead of returning a reported format error. -/
theorem c4_nonstring_key_faults :
    decodeTop ['d', 'i', '3', 'e', '0', ':', 'e'] = .error .panicTypeAssertion ∧
    decodeTop ['d', 'l', 'e', '0', ':', 'e'] = .error .panicTypeAssertion :=
  ⟨rfl, rfl⟩

/-- C9 (code evaluated at the failing input): on `"ie"` the integer token
between `'i'` and `'e'` is empty, and the decoder indexes it at position
0 (`intbuf[0]`) to test for a leading `'-'` — an out-of-bounds access
(modelled by the distinguished `panicIndexOutOfRange` outcome), so decode
is not total: it neither returns a value nor a reported error there. -/
theorem c9_empty_integer_token_faults :
    decodeTop ['i', 'e'] = .error .panicIndexOutOfRange :=
  rfl


/-- Marshal/inject round trip, by strong induction on the size of the
value side: a supported, recursively non-zero value marshals to a node
that injects back to the same value; elementwise for slices (with the
append/index bookkeeping of `unmarshalListAux`); fieldwise for structs
(with global indices for the wire-key lookup of `dictLoop`). -/
theorem marshal_inject_all (n : Nat) :
    (∀ (ty : FieldType) (v : Value), sizeOf v ≤ n → supportedTy ty = true →
      typedNZ ty v = true →
      ∃ m, marshalValue ty v = .ok (some m) ∧
        injectFieldD ty m (zeroValue ty) = .ok v ∧
        injectElemL ty m (zeroValue ty) = .ok v) ∧
    (∀ (e : FieldType) (es : List Value), sizeOf es ≤ n → supportedTy e = true →
      typedNZList e es = true →
      ∃ ms, marshalListAux e es = .ok ms ∧ ms.length = es.length ∧
        ∀ acc : List Value, unmarshalListAux e ms acc acc.length = .ok (acc ++ es)) ∧
    (∀ (flPre fl2 : List FieldDecl) (pre vs2 : List Value), sizeOf vs2 ≤ n →
      nodupKeysB (flPre ++ fl2) = true → fieldsOK fl2 = true →
      typedNZFields fl2 vs2 = true → pre.length = flPre.length →
      ∃ kvs, marshalFields fl2 vs2 = .ok kvs ∧ kvs.length = fl2.length ∧
        dictLoop (flPre ++ fl2) kvs (pre ++ zeroValues fl2) = .ok (pre ++ vs2)) := by
  induction n using Nat.strong_induction_on with
  | _ n ih =>
  refine ⟨?_, ?_, ?_⟩
  · -- single values
    intro ty v hs hsup hnz
    match ty, v, hnz with
    | .tInt64, .vInt i, hnz =>
      have hne : ¬ (i = 0) := by simpa [typedNZ] using hnz
      refine ⟨⟨some (.i i), [], []⟩, ?_, ?_, ?_⟩
      · simp [marshalValue, marshalPOD, hne]
      · simp [injectFieldD, unmarshalPOD]
      · simp [injectElemL, unmarshalPOD]
    | .tUint64, .vUint m, hnz =>
      have hne : ¬ (m = 0) := by simpa [typedNZ] using hnz
      refine ⟨⟨some (.u m), [], []⟩, ?_, ?_, ?_⟩
      · simp [marshalValue, marshalPOD, hne]
      · simp [injectFieldD, unmarshalPOD]
      · simp [injectElemL, unmarshalPOD]
    | .tString, .vStr s, hnz =>
      have hne : ¬ (s = []) := by simpa [typedNZ] using hnz
      refine ⟨⟨some (.s s), [], []⟩, ?_, ?_, ?_⟩
      · simp [marshalValue, marshalPOD, hne]
      · simp [injectFieldD, unmarshalPOD]
      · simp [injectElemL, unmarshalPOD]
    | .tSlice e, .vSlice es, hnz =>
      have hsup' : supportedTy e = true := by simpa [supportedTy] using hsup
      have hsplit : ¬ es.isEmpty = true ∧ typedNZList e es = true := by
        simpa [typedNZ, Bool.and_eq_true] using hnz
      obtain ⟨e1, es', rfl⟩ : ∃ e1 es', es = e1 :: es' := by
        cases es with
        | nil => exact (hsplit.1 (by simp)).elim
        | cons a b => exact ⟨a, b, rfl⟩
      have hsz : sizeOf (e1 :: es') ≤ n - 1 ∧ 1 ≤ n := by
        have h1 : sizeOf (Value.vSlice (e1 :: es')) ≤ n := hs
        simp only [Value.vSlice.sizeOf_spec] at h1
        omega
      obtain ⟨ms, hm, hmlen, hun⟩ :=
        (ih (n - 1) (by omega)).2.1 e (e1 :: es') hsz.1 hsup' hsplit.2
      obtain ⟨m1, ms', rfl⟩ : ∃ m1 ms', ms = m1 :: ms' := by
        cases ms with
        | nil => simp at hmlen
        | cons a b => exact ⟨a, b, rfl⟩
      have h0 : unmarshalListAux e (m1 :: ms') [] 0 = .ok (e1 :: es') := by
        have := hun []
        simpa using this
      refine ⟨⟨none, m1 :: ms', []⟩, ?_, ?_, ?_⟩
      · simp only [marshalValue, marshalList, hm]
      · simp only [injectFieldD, zeroValue, unmarshalList, h0]
      · simp only [injectElemL, zeroValue, unmarshalList, h0]
    | .tPtr fl, .vPtr (some vs), hnz =>
      have hsplit : ¬ fl.isEmpty = true ∧ fieldsOK fl = true ∧ nodupKeysB fl = true := by
        simpa [supportedTy, Bool.and_eq_true, and_assoc] using hsup
      have hnzf : typedNZFields fl vs = true := by simpa [typedNZ] using hnz
      have hsz : sizeOf vs ≤ n - 1 ∧ 1 ≤ n := by
        have h1 : sizeOf (Value.vPtr (some vs)) ≤ n := hs
        simp only [Value.vPtr.sizeOf_spec, Option.some.sizeOf_spec] at h1
        omega
      obtain ⟨kvs, hm, hklen, hloop⟩ :=
        (ih (n - 1) (by omega)).2.2 [] fl [] vs hsz.1
          (by simpa using hsplit.2.2) hsplit.2.1 hnzf rfl
      simp only [List.nil_append] at hloop
      obtain ⟨f, fl', rfl⟩ : ∃ f fl', fl = f :: fl' := by
        cases fl with
        | nil => exact (hsplit.1 (by simp)).elim
        | cons a b => exact ⟨a, b, rfl⟩
      obtain ⟨k1, kvs', rfl⟩ : ∃ k1 kvs', kvs = k1 :: kvs' := by
        cases kvs with
        | nil => simp at hklen
        | cons a b => exact ⟨a, b, rfl⟩
      refine ⟨⟨none, [], k1 :: kvs'⟩, ?_, ?_, ?_⟩
      · simp only [marshalValue, marshalDictGo, hm]
      · simp only [injectFieldD, unmarshalDictGo, hloop]
      · simp only [injectElemL, unmarshalDictGo, hloop]
  · -- slice elements
    intro e es hs hsup hnz
    match es, hnz with
    | [], _ =>
      refine ⟨[], by simp [marshalListAux], rfl, ?_⟩
      intro acc
      simp [unmarshalListAux]
    | v :: t, hnz =>
      have hsplit : typedNZ e v = true ∧ typedNZList e t = true := by
        simpa [typedNZList, Bool.and_eq_true] using hnz
      have hsz : sizeOf v ≤ n - 1 ∧ sizeOf t ≤ n - 1 ∧ 1 ≤ n := by
        have h1 : sizeOf (v :: t) ≤ n := hs
        simp only [List.cons.sizeOf_spec] at h1
        omega
      obtain ⟨m, hm, _, hinjE⟩ :=
        (ih (n - 1) (by omega)).1 e v hsz.1 hsup hsplit.1
      obtain ⟨ms', hm', hlen', hun'⟩ :=
        (ih (n - 1) (by omega)).2.1 e t hsz.2.1 hsup hsplit.2
      refine ⟨m :: ms', ?_, by simp [hlen'], ?_⟩
      · simp only [marshalListAux, hm, hm']
      · intro acc
        rw [unmarshalListAux, getD_append_len acc (zeroValue e) [] (zeroValue e)]
        simp only [hinjE]
        rw [set_append_len acc (zeroValue e) [] v]
        have hidx : acc.length + 1 = (acc ++ [v]).length := by simp
        rw [hidx, hun' (acc ++ [v])]
        simp
  · -- struct fields
    intro flPre fl2 pre vs2 hs hnodup hok hnz hlen
    match fl2, vs2, hnz with
    | [], [], _ =>
      refine ⟨[], by simp [marshalFields], rfl, ?_⟩
      rw [show zeroValues [] = [] from rfl, dictLoop]
    | [], v :: vt, hnz => exact absurd hnz (by simp [typedNZFields])
    | f :: fl', [], hnz => exact absurd hnz (by simp [typedNZFields])
    | ⟨nm, tg, ex, ty⟩ :: fl', v :: vt, hnz =>
      have hoksplit : ex = true ∧ supportedTy ty = true ∧ fieldsOK fl' = true := by
        simpa [fieldsOK, Bool.and_eq_true, and_assoc] using hok
      have hnzsplit : typedNZ ty v = true ∧ typedNZFields fl' vt = true := by
        simpa [typedNZFields, FieldDecl.ty, Bool.and_eq_true] using hnz
      have hsz : sizeOf v ≤ n - 1 ∧ sizeOf vt ≤ n - 1 ∧ 1 ≤ n := by
        have h1 : sizeOf (v :: vt) ≤ n := hs
        simp only [List.cons.sizeOf_spec] at h1
        omega
      obtain ⟨m, hm, hinjD, _⟩ :=
        (ih (n - 1) (by omega)).1 ty v hsz.1 hoksplit.2.1 hnzsplit.1
      have hnodup' : nodupKeysB ((flPre ++ [⟨nm, tg, ex, ty⟩]) ++ fl') = true := by
        simpa [List.append_assoc] using hnodup
      have hlen' : (pre ++ [v]).length = (flPre ++ [(⟨nm, tg, ex, ty⟩ : FieldDecl)]).length := by
        simp [hlen]
      obtain ⟨kvs', hm', hklen', hloop'⟩ :=
        (ih (n - 1) (by omega)).2.2 (flPre ++ [⟨nm, tg, ex, ty⟩]) fl'
          (pre ++ [v]) vt hsz.2.1 hnodup' hoksplit.2.2 hnzsplit.2 hlen'
      simp only [List.append_assoc, List.singleton_append] at hloop'
      refine ⟨(wireKey ⟨nm, tg, ex, ty⟩, m) :: kvs', ?_, by simp [hklen'], ?_⟩
      · simp only [marshalFields, FieldDecl.exported, hoksplit.1, if_true,
          FieldDecl.ty, hm, hm']
      · have hfi : fieldIndex (flPre ++ ⟨nm, tg, ex, ty⟩ :: fl') (wireKey ⟨nm, tg, ex, ty⟩)
            = some flPre.length :=
          fieldIndex_of_nodup flPre ⟨nm, tg, ex, ty⟩ fl'
            (show FieldDecl.exported ⟨nm, tg, ex, ty⟩ = true from hoksplit.1) hnodup
        rw [show zeroValues (⟨nm, tg, ex, ty⟩ :: fl') = zeroValue ty :: zeroValues fl'
          from rfl]
        simp only [dictLoop, hfi]
        rw [getD_append_len flPre (⟨nm, tg, ex, ty⟩ : FieldDecl) fl']
        simp only [FieldDecl.ty]
        rw [← hlen, getD_append_len pre (zeroValue ty) (zeroValues fl')]
        simp only [hinjD]
        rw [set_append_len pre (zeroValue ty) (zeroValues fl') v]
        exact hloop'

/-! ## Claim theorems: the reflective layer -/

/-- C2 (counterexample): a record with a single struct-pointer field
whose pointee type has no fields.  Every field of the value is non-zero
(the pointer is non-nil), yet projecting and re-injecting into a fresh
record loses it: the nested struct marshals to a dict with no entries,
whose injection matches no case of the switch and leaves the fresh
field's pointer nil. -/
theorem c2_nested_empty_struct_breaks_roundtrip :
    marshalDictGo (.tPtr [⟨['P'], [], true, .tPtr []⟩]) (.vPtr (some [.vPtr (some [])]))
      = .ok (some ⟨none, [], [(['P'], ⟨none, [], []⟩)]⟩) ∧
    unmarshalDictGo (.tPtr [⟨['P'], [], true, .tPtr []⟩]) [(['P'], ⟨none, [], []⟩)]
      (.vPtr (some (zeroValues [⟨['P'], [], true, .tPtr []⟩])))
      = .ok (.vPtr (some [.vPtr none])) ∧
    Value.vPtr (some [Value.vPtr none]) ≠ Value.vPtr (some [Value.vPtr (some [])]) := by
  refine ⟨?_, ?_, by simp⟩
  · simp [marshalDictGo, marshalFields, marshalValue, FieldDecl.exported, FieldDecl.ty,
      wireKey, FieldDecl.tag, FieldDecl.name]
  · simp [unmarshalDictGo, dictLoop, fieldIndex, injectFieldD, zeroValues, zeroValue,
      wireKey, FieldDecl.exported, FieldDecl.ty, FieldDecl.tag, FieldDecl.name]

/-- C2 (amended): for a well-formed schema — struct types non-empty with
all fields exported, of supported shapes, and with pairwise-distinct
wire keys (`supportedTy`) — and a value all of whose fields are
recursively non-zero/non-empty, projection succeeds and injection into a
freshly zeroed record rebuilds exactly the original value. -/
theorem c2_roundtrip_nonzero (fl : List FieldDecl) (vs : List Value)
    (hwf : supportedTy (.tPtr fl) = true)
    (hnz : typedNZFields fl vs = true) :
    ∃ kvs, marshalDictGo (.tPtr fl) (.vPtr (some vs)) = .ok (some ⟨none, [], kvs⟩) ∧
      unmarshalDictGo (.tPtr fl) kvs (.vPtr (some (zeroValues fl)))
        = .ok (.vPtr (some vs)) := by
  have hsplit : ¬ fl.isEmpty = true ∧ fieldsOK fl = true ∧ nodupKeysB fl = true := by
    simpa [supportedTy, Bool.and_eq_true, and_assoc] using hwf
  obtain ⟨kvs, hm, _, hloop⟩ :=
    (marshal_inject_all (sizeOf vs)).2.2 [] fl [] vs le_rfl
      (by simpa using hsplit.2.2) hsplit.2.1 hnz rfl
  simp only [List.nil_append] at hloop
  refine ⟨kvs, ?_, ?_⟩
  · simp only [marshalDictGo, hm]
  · simp only [unmarshalDictGo, hloop]

theorem c2_roundtrip_nonzero_witness :
    ∃ kvs, marshalDictGo
        (.tPtr [⟨['A'], [], true, .tInt64⟩,
                ⟨['P'], [], true, .tPtr [⟨['X'], [], true, .tUint64⟩]⟩])
        (.vPtr (some [.vInt (-7), .vPtr (some [.vUint 2])]))
        = .ok (some ⟨none, [], kvs⟩) ∧
      unmarshalDictGo
        (.tPtr [⟨['A'], [], true, .tInt64⟩,
                ⟨['P'], [], true, .tPtr [⟨['X'], [], true, .tUint64⟩]⟩]) kvs
        (.vPtr (some (zeroValues [⟨['A'], [], true, .tInt64⟩,
                ⟨['P'], [], true, .tPtr [⟨['X'], [], true, .tUint64⟩]⟩])))
        = .ok (.vPtr (some [.vInt (-7), .vPtr (some [.vUint 2])])) :=
  c2_roundtrip_nonzero _ _ (by decide) (by decide)

/-- The shapes whose zero value `marshalDict` omits (the POD kinds via
`marshalPOD`'s DeepEqual-with-zero test, slices via the `Len() == 0`
test). -/
def omittableZero : FieldType → Bool
  | .tInt64 => true
  | .tUint64 => true
  | .tString => true
  | .tSlice _ => true
  | _ => false

/-- C5 (counterexample): a nil struct-pointer field is not omitted —
projection faults on it: `marshalDict` calls `val.Elem()` on the nil
pointer and `Value.Type` on the resulting zero `reflect.Value` panics
(modelled by the `panicZeroValue` outcome). -/
theorem c5_nil_pointer_field_faults :
    marshalDictGo (.tPtr [⟨['P'], [], true, .tPtr [⟨['X'], [], true, .tInt64⟩]⟩])
      (.vPtr (some [.vPtr none])) = .error .panicZeroValue := by
  simp [marshalDictGo, marshalFields, marshalValue, FieldDecl.exported, FieldDecl.ty]

/-- C5 (amended): a field of scalar or sequence shape (int64, uint64,
string, slice) holding its type's zero value (0, empty string,
empty/nil sequence) contributes no key: marshalling the record equals
marshalling it without that field.  (For a nil struct-pointer field the
claim fails: projection faults instead of omitting — see the
counterexample.) -/
theorem c5_zero_fields_omitted (nm tg : List Char) (ex : Bool) (ty : FieldType)
    (fl : List FieldDecl) (vt : List Value) (h : omittableZero ty = true) :
    marshalFields (⟨nm, tg, ex, ty⟩ :: fl) (zeroValue ty :: vt) = marshalFields fl vt := by
  have hval : marshalValue ty (zeroValue ty) = .ok none := by
    match ty, h with
    | .tInt64, _ => simp [marshalValue, zeroValue, marshalPOD]
    | .tUint64, _ => simp [marshalValue, zeroValue, marshalPOD]
    | .tString, _ => simp [marshalValue, zeroValue, marshalPOD]
    | .tSlice e, _ => simp [marshalValue, zeroValue, marshalList]
  cases hex : ex with
  | false => simp [marshalFields, FieldDecl.exported]
  | true =>
    cases hrec : marshalFields fl vt with
    | error e => simp [marshalFields, FieldDecl.exported, FieldDecl.ty, hval, hrec]
    | ok rest => simp [marshalFields, FieldDecl.exported, FieldDecl.ty, hval, hrec]

theorem c5_zero_fields_omitted_witness :
    marshalFields [⟨['A'], [], true, .tInt64⟩] [zeroValue .tInt64]
        = marshalFields [] [] ∧
    marshalFields [⟨['S'], [], true, .tSlice .tUint64⟩] [zeroValue (.tSlice .tUint64)]
        = marshalFields [] [] :=
  ⟨c5_zero_fields_omitted ['A'] [] true .tInt64 [] [] (by decide),
   c5_zero_fields_omitted ['S'] [] true (.tSlice .tUint64) [] [] (by decide)⟩

/-- The scalar/target combinations `unmarshalPOD` accepts: matching
kinds, plus the single unsigned-into-signed widening. -/
def scalarAccepts : POD → FieldType → Bool
  | .i _, .tInt64 => true
  | .u _, .tInt64 => true
  | .u _, .tUint64 => true
  | .s _, .tString => true
  | _, _ => false

/-- C6: scalar injection — an unsigned wire integer injects into a
signed 64-bit field by reinterpretation modulo `2^64` with no range
check (`int64(u)`); a signed wire integer into an unsigned field is the
mismatched-type error; and every other kind combination outside
`scalarAccepts` is likewise a type error naming the two kinds. -/
theorem c6_scalar_injection :
    (∀ u : Nat, unmarshalPOD (.u u) .tInt64 = .ok (.vInt (toInt64 u))) ∧
    (∀ i : Int, unmarshalPOD (.i i) .tUint64
        = .error (.errMismatch .kUint64 .kInt64)) ∧
    (∀ (p : POD) (ty : FieldType), scalarAccepts p ty = false →
      unmarshalPOD p ty = .error (.errMismatch (kindOfTy ty) (podKind p))) := by
  refine ⟨fun u => rfl, fun i => rfl, ?_⟩
  intro p ty h
  match p, ty, h with
  | .i _, .tUint64, _ => rfl
  | .i _, .tString, _ => rfl
  | .i _, .tBool, _ => rfl
  | .i _, .tSlice _, _ => rfl
  | .i _, .tPtr _, _ => rfl
  | .i _, .tRawPtr, _ => rfl
  | .i _, .tMap, _ => rfl
  | .u _, .tString, _ => rfl
  | .u _, .tBool, _ => rfl
  | .u _, .tSlice _, _ => rfl
  | .u _, .tPtr _, _ => rfl
  | .u _, .tRawPtr, _ => rfl
  | .u _, .tMap, _ => rfl
  | .s _, .tInt64, _ => rfl
  | .s _, .tUint64, _ => rfl
  | .s _, .tBool, _ => rfl
  | .s _, .tSlice _, _ => rfl
  | .s _, .tPtr _, _ => rfl
  | .s _, .tRawPtr, _ => rfl
  | .s _, .tMap, _ => rfl

theorem c6_scalar_injection_witness :
    unmarshalPOD (.u (2 ^ 63)) .tInt64 = .ok (.vInt (-(2 ^ 63))) ∧
    unmarshalPOD (.i 3) .tUint64 = .error (.errMismatch .kUint64 .kInt64) ∧
    unmarshalPOD (.s ['x']) .tInt64 = .error (.errMismatch .kInt64 .kString) := by
  refine ⟨?_, c6_scalar_injection.2.1 3,
    c6_scalar_injection.2.2 (.s ['x']) .tInt64 (by decide)⟩
  rw [c6_scalar_injection.1 (2 ^ 63)]
  norm_num [toInt64]

/-- C7: a dict entry whose key matches no target field is skipped
(`continue`) without touching the target or producing an error —
injection of such an entry list equals injection of the list without
that entry. -/
theorem c7_unknown_keys_skipped (fl : List FieldDecl) (k : List Char)
    (rm : RawMessage) (t : List (List Char × RawMessage)) (vs : List Value)
    (h : fieldIndex fl k = none) :
    dictLoop fl ((k, rm) :: t) vs = dictLoop fl t vs := by
  simp only [dictLoop, h]

theorem c7_unknown_keys_skipped_witness :
    dictLoop [⟨['A'], [], true, .tInt64⟩] [(['Z'], ⟨some (.u 1), [], []⟩)] [.vInt 0]
      = dictLoop [⟨['A'], [], true, .tInt64⟩] [] [.vInt 0] :=
  c7_unknown_keys_skipped [⟨['A'], [], true, .tInt64⟩] ['Z']
    ⟨some (.u 1), [], []⟩ [] [.vInt 0] (by decide)

/-- Kinds outside the marshal switch (`Int64`, `Uint64`, `String`,
`Slice`, `Ptr`). -/
def marshalSwitchMisses (ty : FieldType) : Bool :=
  match kindOfTy ty with
  | .kInt64 => false
  | .kUint64 => false
  | .kString => false
  | .kSlice => false
  | .kPtr => false
  | _ => true

/-- C8 (counterexample): a struct with a `bool` field — whose declared
shape is none of {scalar, sequence, record-pointer, opaque passthrough}
— marshals WITHOUT any error: the offending field's key is simply
absent from the result.  No configuration error naming the field is
returned. -/
theorem c8_no_error_for_unsupported_field :
    marshalDictGo (.tPtr [⟨['F'], [], true, .tBool⟩, ⟨['B'], [], true, .tInt64⟩])
      (.vPtr (some [.vBool true, .vInt 5]))
      = .ok (some ⟨none, [], [(['B'], ⟨some (.i 5), [], []⟩)]⟩) := by
  simp [marshalDictGo, marshalFields, marshalValue, marshalPOD,
    FieldDecl.exported, FieldDecl.ty, wireKey, FieldDecl.tag, FieldDecl.name]

/-- C8 (amended): a field whose declared kind falls outside the marshal
switch is silently skipped — `kv.V` stays nil, so no key is emitted and
no error is returned: marshalling the record equals marshalling it
without that field. -/
theorem c8_unsupported_fields_skipped (nm tg : List Char) (ex : Bool) (ty : FieldType)
    (v : Value) (fl : List FieldDecl) (vt : List Value)
    (h : marshalSwitchMisses ty = true) :
    marshalFields (⟨nm, tg, ex, ty⟩ :: fl) (v :: vt) = marshalFields fl vt := by
  have hval : marshalValue ty v = .ok none := by
    match ty, h with
    | .tBool, _ =>
      match v with
      | .vInt _ | .vUint _ | .vStr _ | .vBool _ | .vSlice _ | .vPtr _ | .vRaw _
      | .vMap _ => simp [marshalValue]
    | .tMap, _ =>
      match v with
      | .vInt _ | .vUint _ | .vStr _ | .vBool _ | .vSlice _ | .vPtr _ | .vRaw _
      | .vMap _ => simp [marshalValue]
  cases hex : ex with
  | false => simp [marshalFields, FieldDecl.exported]
  | true =>
    cases hrec : marshalFields fl vt with
    | error e => simp [marshalFields, FieldDecl.exported, FieldDecl.ty, hval, hrec]
    | ok rest => simp [marshalFields, FieldDecl.exported, FieldDecl.ty, hval, hrec]

theorem c8_unsupported_fields_skipped_witness :
    marshalFields [⟨['F'], [], true, .tBool⟩] [.vBool true] = marshalFields [] [] :=
  c8_unsupported_fields_skipped ['F'] [] true .tBool (.vBool true) [] [] (by decide)

/-- C10: injecting a wire dict into a map-kind target succeeds but the
map stays empty: the wire-key lookup is built only for struct-pointer
targets, so with a map target every key misses and the entry loop is the
identity; in the dict-field case the field is first set to a freshly
made empty map, which the loop then never fills. -/
theorem c10_map_injection_yields_empty_map :
    (∀ (d : List (List Char × RawMessage)) (m : Option (List (List Char × Value))),
      unmarshalDictGo .tMap d (.vMap m) = .ok (.vMap m)) ∧
    (∀ (kv : List Char × RawMessage) (kvs : List (List Char × RawMessage)) (cur : Value),
      injectFieldD .tMap ⟨none, [], kv :: kvs⟩ cur = .ok (.vMap (some []))) := by
  have hbase : ∀ (d : List (List Char × RawMessage))
      (m : Option (List (List Char × Value))),
      unmarshalDictGo .tMap d (.vMap m) = .ok (.vMap m) := by
    intro d m
    simp only [unmarshalDictGo, dictLoop_nil_fields]
  refine ⟨hbase, ?_⟩
  intro kv kvs cur
  simp only [injectFieldD]
  exact hbase (kv :: kvs) (some [])

end Bencode
